import Mathlib

/-!
Verification of the baby mark-sweep garbage collector (`src/main.c`).

The C program is embedded shallowly:

* A heap object (`struct sObject`) becomes `Obj`: a mark bit plus a payload
  (`ObjData.int` for `OBJ_INT`, `ObjData.pair head tail` for `OBJ_PAIR`).
  Pointers become natural-number object identities; the intrusive `next`
  links of the allocation registry become the order of an association list
  `Heap := List (Nat × Obj)` whose head is `vm->firstObject`.
* `VM` carries the registry (`firstObject`), the operand stack (head of the
  list is the top of the stack, i.e. `vm->stack[stackSize-1]`), the counters
  `numObjects` and `maxObjects` (C `int`, embedded as `Int`), and `nextId`,
  the supply of fresh identities standing in for `malloc` addresses.
* `exit(1)` after the failed `assert` in `push`/`pop` is embedded as
  `Except.error` carrying the diagnostic message; every other operation is a
  total function, exactly as in the C code.
* The recursive `mark` is defined with explicit fuel; `mark` proper runs it
  with fuel `unmarkedCount h + 1`, and a fuel-insensitivity theorem shows the
  result is independent of the fuel once the fuel exceeds the number of
  unmarked objects, which is the termination argument for the C recursion.
-/

namespace BabyGC

/-- `ObjectType` from the C source. -/
inductive ObjectType
  | OBJ_INT
  | OBJ_PAIR
deriving DecidableEq

/-- Payload of a heap object: the `union` inside `struct sObject`.
`pair a b` stores the identities of the `head` (`a`) and `tail` (`b`). -/
inductive ObjData
  | int (value : Int)
  | pair (head tl : Nat)
deriving DecidableEq

/-- A heap object: mark bit plus payload. -/
structure Obj where
  marked : Bool
  data : ObjData
deriving DecidableEq

/-- The allocation registry: `vm->firstObject` followed along `next` links.
Each entry pairs an object identity with the object. -/
abbrev Heap := List (Nat × Obj)

/-- Dereference an object identity (pointer dereference in C): first entry
with the given identity. -/
def lookupObj (h : Heap) (x : Nat) : Option Obj :=
  match h with
  | [] => none
  | (i, o) :: rest => if i = x then some o else lookupObj rest x

/-- Mutate the object with identity `x` in place (a C field assignment
through a pointer): only the first entry with that identity changes. -/
def updateObj (h : Heap) (x : Nat) (f : Obj → Obj) : Heap :=
  match h with
  | [] => []
  | (i, o) :: rest => if i = x then (i, f o) :: rest else (i, o) :: updateObj rest x f

/-- The pointer graph of a heap: identity to payload, ignoring mark bits. -/
def graph (h : Heap) (x : Nat) : Option ObjData :=
  (lookupObj h x).map Obj.data

/-- The mark bit of the object with identity `x` (false when absent). -/
def isMarked (h : Heap) (x : Nat) : Bool :=
  ((lookupObj h x).map Obj.marked).getD false

/-- The set of identities whose object is marked. -/
def markedSet (h : Heap) : Set Nat :=
  { x | isMarked h x = true }

/-- Number of unmarked registry entries: the fuel measure for `mark`. -/
def unmarkedCount (h : Heap) : Nat :=
  (h.filter (fun e => !e.2.marked)).length

/-- `object->marked = 1`. -/
def setMark (h : Heap) (x : Nat) : Heap :=
  updateObj h x (fun o => { o with marked := true })

/-- The recursive `mark` of the C source, with explicit fuel:
if the object is already marked, return; otherwise set the mark and, for a
pair, recursively mark the head and then the tail. -/
def markFuel : Nat → Nat → Heap → Heap
  | 0, _, h => h
  | f + 1, r, h =>
    match lookupObj h r with
    | none => h
    | some o =>
      if o.marked then h
      else
        match o.data with
        | .int _ => setMark h r
        | .pair a b => markFuel f b (markFuel f a (setMark h r))

/-- `mark(object)`: run the recursion with enough fuel (each recursive layer
marks one previously unmarked object, so `unmarkedCount h + 1` suffices;
fuel-insensitivity is proved below). -/
def mark (r : Nat) (h : Heap) : Heap :=
  markFuel (unmarkedCount h + 1) r h

/-- `markAll(vm)` on the heap: mark every root on the operand stack, bottom
of the stack first (the C loop runs `i = 0 .. stackSize-1`; the list head is
the top of the stack, so `foldr` visits the bottom first). -/
def markAllHeap (stack : List Nat) (h : Heap) : Heap :=
  stack.foldr mark h

/-- One pass of the `sweep` loop over the registry: returns the surviving
list (marked entries, with their mark bit cleared, in order) and the number
of freed (unmarked) entries. -/
def sweepAux : Heap → Heap × Nat
  | [] => ([], 0)
  | (i, o) :: rest =>
    let (kept, freed) := sweepAux rest
    if o.marked then ((i, { o with marked := false }) :: kept, freed)
    else (kept, freed + 1)

/-- `STACK_MAX` from the C source. -/
def STACK_MAX : Nat := 256

/-- `INIT_OBJ_NUM_MAX` from the C source. -/
def INIT_OBJ_NUM_MAX : Int := 8

/-- The `VM` struct. `stack` holds the operand stack with the top at the
head of the list; `stackSize` is `stack.length`. -/
structure VM where
  firstObject : Heap
  stack : List Nat
  numObjects : Int
  maxObjects : Int
  nextId : Nat
deriving DecidableEq

/-- `newVM()`. -/
def newVM : VM :=
  { firstObject := [], stack := [], numObjects := 0,
    maxObjects := INIT_OBJ_NUM_MAX, nextId := 0 }

/-- `push(vm, value)`: fatal "Stack overflow!" when the stack is full. -/
def push (vm : VM) (v : Nat) : Except String VM :=
  if vm.stack.length < STACK_MAX then .ok { vm with stack := v :: vm.stack }
  else .error "Stack overflow!"

/-- `pop(vm)`: fatal "Stack underflow!" on an empty stack. -/
def pop (vm : VM) : Except String (Nat × VM) :=
  match vm.stack with
  | [] => .error "Stack underflow!"
  | x :: rest => .ok (x, { vm with stack := rest })

/-- `markAll(vm)`. -/
def markAll (vm : VM) : VM :=
  { vm with firstObject := markAllHeap vm.stack vm.firstObject }

/-- `sweep(vm)`: unlink and free every unmarked registry entry, decrement
`numObjects` once per freed entry, clear the mark bit of every survivor. -/
def sweep (vm : VM) : VM :=
  let (kept, freed) := sweepAux vm.firstObject
  { vm with firstObject := kept, numObjects := vm.numObjects - freed }

/-- `gc(vm)`: mark from the roots, sweep, then set
`maxObjects = numObjects * 2` from the post-sweep count. -/
def gc (vm : VM) : VM :=
  let vm1 := sweep (markAll vm)
  { vm1 with maxObjects := vm1.numObjects * 2 }

/-- The payload a fresh object carries before the caller initialises its
fields (the C union is uninitialised memory; the program never reads it
before assigning, so a fixed placeholder is observationally equal). -/
def initData : ObjectType → ObjData
  | .OBJ_INT => .int 0
  | .OBJ_PAIR => .pair 0 0

/-- The unconditional part of `newObject`: `malloc`, tag, clear the mark,
splice at the head of the registry, `numObjects++`, return the object. -/
def allocRaw (vm : VM) (t : ObjectType) : VM × Nat :=
  ({ vm with firstObject := (vm.nextId, { marked := false, data := initData t }) :: vm.firstObject,
             numObjects := vm.numObjects + 1,
             nextId := vm.nextId + 1 }, vm.nextId)

/-- `newObject(vm, type)`: run a collection first exactly when
`numObjects == maxObjects`, then allocate. -/
def newObject (vm : VM) (t : ObjectType) : VM × Nat :=
  allocRaw (if vm.numObjects = vm.maxObjects then gc vm else vm) t

/-- `object->value = intValue`. -/
def setValue (vm : VM) (x : Nat) (v : Int) : VM :=
  { vm with firstObject := updateObj vm.firstObject x (fun o => { o with data := .int v }) }

/-- `object->tail = t` (only ever applied to a pair object). -/
def setTailOf (vm : VM) (x : Nat) (t : Nat) : VM :=
  { vm with firstObject := updateObj vm.firstObject x (fun o =>
      match o.data with
      | .pair a _ => { o with data := .pair a t }
      | .int v => { o with data := .int v }) }

/-- `object->head = hd` (only ever applied to a pair object). -/
def setHeadOf (vm : VM) (x : Nat) (hd : Nat) : VM :=
  { vm with firstObject := updateObj vm.firstObject x (fun o =>
      match o.data with
      | .pair _ b => { o with data := .pair hd b }
      | .int v => { o with data := .int v }) }

/-- `pushInt(vm, intValue)`. -/
def pushInt (vm : VM) (v : Int) : Except String VM :=
  let (vm1, x) := newObject vm .OBJ_INT
  push (setValue vm1 x v) x

/-- `pushPair(vm)`: allocate the pair first (this may trigger a collection
while both operands are still on the stack), then pop the tail, pop the
head, push the pair and return it. -/
def pushPair (vm : VM) : Except String (VM × Nat) :=
  let p := newObject vm .OBJ_PAIR
  match pop p.1 with
  | .error e => .error e
  | .ok tv =>
    match pop (setTailOf tv.2 p.2 tv.1) with
    | .error e => .error e
    | .ok hv =>
      match push (setHeadOf hv.2 p.2 hv.1) p.2 with
      | .error e => .error e
      | .ok vm4 => .ok (vm4, p.2)

/-- Every registry entry is unmarked: the steady state of the heap outside
an in-progress collection cycle. -/
def AllUnmarked (h : Heap) : Prop :=
  ∀ e ∈ h, e.2.marked = false

instance (h : Heap) : Decidable (AllUnmarked h) :=
  List.decidableBAll _ h

/-- `z` is a child of `y` in the pointer graph `g`. -/
def IsChild (g : Nat → Option ObjData) (y z : Nat) : Prop :=
  ∃ a b, g y = some (.pair a b) ∧ (z = a ∨ z = b)

/-- Reachability from `r` in the pointer graph `g` along paths that avoid
the set `A` (the already-marked identities): exactly the identities a call
`mark r` newly marks when `A` is the marked set. Every node on the path
must denote an actual object. -/
inductive ReachA (g : Nat → Option ObjData) (A : Set Nat) (r : Nat) : Nat → Prop
  | refl : (g r).isSome → r ∉ A → ReachA g A r r
  | step (y z : Nat) : ReachA g A r y → IsChild g y z → (g z).isSome → z ∉ A →
      ReachA g A r z

/-- Plain reachability from `r` (no avoided set). -/
def Reach (g : Nat → Option ObjData) (r x : Nat) : Prop :=
  ReachA g ∅ r x

/-- The VM states reachable through the public operations of the core. -/
inductive ReachableVM : VM → Prop
  | init : ReachableVM newVM
  | step_pushInt (vm : VM) (v : Int) (vm' : VM) :
      ReachableVM vm → pushInt vm v = .ok vm' → ReachableVM vm'
  | step_pushPair (vm vm' : VM) (x : Nat) :
      ReachableVM vm → pushPair vm = .ok (vm', x) → ReachableVM vm'
  | step_pop (vm vm' : VM) (x : Nat) :
      ReachableVM vm → pop vm = .ok (x, vm') → ReachableVM vm'
  | step_gc (vm : VM) : ReachableVM vm → ReachableVM (gc vm)

/-! ### Basic laws of the association-list heap -/

theorem lookupObj_nil (x : Nat) : lookupObj [] x = none := rfl

theorem lookupObj_cons (i : Nat) (o : Obj) (rest : Heap) (x : Nat) :
    lookupObj ((i, o) :: rest) x = if i = x then some o else lookupObj rest x := rfl

theorem lookupObj_mem {h : Heap} {x : Nat} {o : Obj} (hl : lookupObj h x = some o) :
    (x, o) ∈ h := by
  induction h with
  | nil => simp [lookupObj] at hl
  | cons e rest ih =>
    obtain ⟨i, o'⟩ := e
    rw [lookupObj_cons] at hl
    by_cases hix : i = x
    · subst hix
      simp at hl
      subst hl
      exact List.mem_cons_self _ _
    · rw [if_neg hix] at hl
      exact List.mem_cons_of_mem _ (ih hl)

theorem lookupObj_isSome_of_mem {h : Heap} {x : Nat} {o : Obj} (hm : (x, o) ∈ h) :
    (lookupObj h x).isSome := by
  induction h with
  | nil => simp at hm
  | cons e rest ih =>
    obtain ⟨i, o'⟩ := e
    rw [lookupObj_cons]
    by_cases hix : i = x
    · simp [hix]
    · rw [if_neg hix]
      rcases List.mem_cons.1 hm with h1 | h2
      · exact absurd (congrArg Prod.fst h1).symm hix
      · exact ih h2

theorem lookupObj_eq_of_nodup {h : Heap} {x : Nat} {o : Obj}
    (hnd : (h.map Prod.fst).Nodup) (hm : (x, o) ∈ h) :
    lookupObj h x = some o := by
  induction h with
  | nil => simp at hm
  | cons e rest ih =>
    obtain ⟨i, o'⟩ := e
    rw [List.map_cons, List.nodup_cons] at hnd
    rw [lookupObj_cons]
    rcases List.mem_cons.1 hm with h1 | h2
    · obtain ⟨h1a, h1b⟩ := Prod.mk.injEq .. ▸ h1.symm
      simp [h1a, h1b]
    · have hix : i ≠ x := by
        intro hix
        subst hix
        exact hnd.1 (List.mem_map.2 ⟨(i, o), h2, rfl⟩)
      rw [if_neg hix]
      exact ih hnd.2 h2

theorem lookup_updateObj (h : Heap) (x : Nat) (f : Obj → Obj) (y : Nat) :
    lookupObj (updateObj h x f) y =
      if y = x then (lookupObj h x).map f else lookupObj h y := by
  induction h with
  | nil => by_cases hyx : y = x <;> simp [updateObj, lookupObj, hyx]
  | cons e rest ih =>
    obtain ⟨i, o⟩ := e
    by_cases hix : i = x
    · subst hix
      by_cases hyx : y = i
      · subst hyx
        simp [updateObj, lookupObj_cons]
      · simp [updateObj, lookupObj_cons, hyx, Ne.symm hyx]
    · by_cases hiy : i = y
      · subst hiy
        have hyx : ¬ i = x := hix
        simp [updateObj, lookupObj_cons, hix, hyx]
      · simp [updateObj, lookupObj_cons, hix, hiy, ih]

theorem updateObj_map_fst (h : Heap) (x : Nat) (f : Obj → Obj) :
    (updateObj h x f).map Prod.fst = h.map Prod.fst := by
  induction h with
  | nil => rfl
  | cons e rest ih =>
    obtain ⟨i, o⟩ := e
    by_cases hix : i = x <;> simp [updateObj, hix, ih]

theorem graph_isSome_iff (h : Heap) (x : Nat) :
    (graph h x).isSome ↔ (lookupObj h x).isSome := by
  unfold graph
  cases lookupObj h x <;> simp

theorem graph_setMark (h : Heap) (r : Nat) : graph (setMark h r) = graph h := by
  funext y
  unfold graph setMark
  rw [lookup_updateObj]
  by_cases hyr : y = r
  · subst hyr
    rw [if_pos rfl]
    cases lookupObj h y <;> rfl
  · rw [if_neg hyr]

theorem setMark_map_fst (h : Heap) (r : Nat) :
    (setMark h r).map Prod.fst = h.map Prod.fst :=
  updateObj_map_fst h r _

theorem isMarked_setMark_self {h : Heap} {r : Nat} {o : Obj}
    (hl : lookupObj h r = some o) : isMarked (setMark h r) r = true := by
  unfold isMarked setMark
  rw [lookup_updateObj, if_pos rfl, hl]
  rfl

theorem isMarked_setMark_ne (h : Heap) (r : Nat) {y : Nat} (hne : y ≠ r) :
    isMarked (setMark h r) y = isMarked h y := by
  unfold isMarked setMark
  rw [lookup_updateObj, if_neg hne]

theorem markedSet_setMark {h : Heap} {r : Nat} {o : Obj}
    (hl : lookupObj h r = some o) :
    markedSet (setMark h r) = insert r (markedSet h) := by
  ext y
  by_cases hyr : y = r
  · subst hyr
    simp only [markedSet, Set.mem_setOf_eq, Set.mem_insert_iff]
    rw [isMarked_setMark_self hl]
    simp
  · simp only [markedSet, Set.mem_setOf_eq, Set.mem_insert_iff]
    rw [isMarked_setMark_ne h r hyr]
    simp [hyr]

theorem unmarkedCount_setMark {h : Heap} {r : Nat} {o : Obj}
    (hl : lookupObj h r = some o) (hm : o.marked = false) :
    unmarkedCount h = unmarkedCount (setMark h r) + 1 := by
  induction h with
  | nil => simp [lookupObj] at hl
  | cons e rest ih =>
    obtain ⟨i, o'⟩ := e
    rw [lookupObj_cons] at hl
    by_cases hir : i = r
    · rw [if_pos hir] at hl
      have ho' : o' = o := by injection hl
      subst ho'
      simp [unmarkedCount, setMark, updateObj, hir, hm, List.filter]
    · rw [if_neg hir] at hl
      have step : setMark ((i, o') :: rest) r = (i, o') :: setMark rest r := by
        simp [setMark, updateObj, hir]
      rw [step]
      by_cases hmo' : o'.marked
      · simp [unmarkedCount, List.filter, hmo'] at ih ⊢
        exact ih hl
      · simp only [Bool.not_eq_true] at hmo'
        simp [unmarkedCount, List.filter, hmo'] at ih ⊢
        rw [ih hl]

theorem not_mem_markedSet {h : Heap} {r : Nat} {o : Obj}
    (hl : lookupObj h r = some o) (hm : o.marked = false) : r ∉ markedSet h := by
  simp only [markedSet, Set.mem_setOf_eq, isMarked, hl]
  simp [hm]

theorem mem_markedSet_iff (h : Heap) (x : Nat) :
    x ∈ markedSet h ↔ isMarked h x = true := Iff.rfl

theorem isMarked_iff (h : Heap) (x : Nat) :
    isMarked h x = true ↔ ∃ o, lookupObj h x = some o ∧ o.marked = true := by
  unfold isMarked
  cases lookupObj h x <;> simp

/-! ### Structural facts about the fuel-indexed mark -/

theorem markFuel_succ (f : Nat) (r : Nat) (h : Heap) :
    markFuel (f + 1) r h =
      match lookupObj h r with
      | none => h
      | some o =>
        if o.marked then h
        else
          match o.data with
          | .int _ => setMark h r
          | .pair a b => markFuel f b (markFuel f a (setMark h r)) := rfl

theorem markFuel_of_none {h : Heap} {r : Nat} (hl : lookupObj h r = none) (f : Nat) :
    markFuel f r h = h := by
  cases f with
  | zero => rfl
  | succ f => rw [markFuel_succ, hl]

theorem markFuel_of_marked {h : Heap} {r : Nat} (hm : isMarked h r = true) (f : Nat) :
    markFuel f r h = h := by
  obtain ⟨o, hl, ho⟩ := (isMarked_iff h r).1 hm
  cases f with
  | zero => rfl
  | succ f =>
    rw [markFuel_succ, hl]
    simp [ho]

theorem graph_markFuel (f : Nat) : ∀ (r : Nat) (h : Heap), graph (markFuel f r h) = graph h := by
  induction f with
  | zero => intro r h; rfl
  | succ f ih =>
    intro r h
    rw [markFuel_succ]
    cases hl : lookupObj h r with
    | none => rfl
    | some o =>
      by_cases hm : o.marked
      · simp [hm]
      · simp only [hm, if_false, Bool.false_eq_true]
        cases hd : o.data with
        | int v => exact graph_setMark h r
        | pair a b => rw [ih, ih, graph_setMark]

theorem map_fst_markFuel (f : Nat) :
    ∀ (r : Nat) (h : Heap), (markFuel f r h).map Prod.fst = h.map Prod.fst := by
  induction f with
  | zero => intro r h; rfl
  | succ f ih =>
    intro r h
    rw [markFuel_succ]
    cases hl : lookupObj h r with
    | none => rfl
    | some o =>
      by_cases hm : o.marked
      · simp [hm]
      · simp only [hm, if_false, Bool.false_eq_true]
        cases hd : o.data with
        | int v => exact setMark_map_fst h r
        | pair a b => rw [ih, ih, setMark_map_fst]

theorem isMarked_markFuel_mono (f : Nat) :
    ∀ (r : Nat) (h : Heap) (y : Nat), isMarked h y = true → isMarked (markFuel f r h) y = true := by
  induction f with
  | zero => intro r h y hy; exact hy
  | succ f ih =>
    intro r h y hy
    rw [markFuel_succ]
    cases hl : lookupObj h r with
    | none => exact hy
    | some o =>
      by_cases hm : o.marked
      · simpa [hm] using hy
      · simp only [hm, if_false, Bool.false_eq_true]
        have hy' : isMarked (setMark h r) y = true := by
          by_cases hyr : y = r
          · subst hyr
            exact isMarked_setMark_self hl
          · rw [isMarked_setMark_ne h r hyr]
            exact hy
        cases hd : o.data with
        | int v => exact hy'
        | pair a b => exact ih b _ y (ih a _ y hy')

theorem unmarkedCount_markFuel_le (f : Nat) :
    ∀ (r : Nat) (h : Heap), unmarkedCount (markFuel f r h) ≤ unmarkedCount h := by
  induction f with
  | zero => intro r h; exact Nat.le_refl _
  | succ f ih =>
    intro r h
    rw [markFuel_succ]
    cases hl : lookupObj h r with
    | none => exact Nat.le_refl _
    | some o =>
      by_cases hm : o.marked
      · simp [hm]
      · simp only [hm, if_false, Bool.false_eq_true]
        have hcount : unmarkedCount h = unmarkedCount (setMark h r) + 1 :=
          unmarkedCount_setMark hl (by simpa using hm)
        cases hd : o.data with
        | int v =>
          show unmarkedCount (setMark h r) ≤ unmarkedCount h
          omega
        | pair a b =>
          show unmarkedCount (markFuel f b (markFuel f a (setMark h r))) ≤ unmarkedCount h
          have h1 := ih a (setMark h r)
          have h2 := ih b (markFuel f a (setMark h r))
          omega

theorem markFuel_fuel_insensitive :
    ∀ (f g : Nat) (r : Nat) (h : Heap), unmarkedCount h < f → unmarkedCount h < g →
      markFuel f r h = markFuel g r h := by
  intro f
  induction f with
  | zero => intro g r h hf hg; omega
  | succ f ih =>
    intro g r h hf hg
    cases g with
    | zero => omega
    | succ g =>
      rw [markFuel_succ, markFuel_succ]
      cases hl : lookupObj h r with
      | none => rfl
      | some o =>
        by_cases hm : o.marked
        · simp [hm]
        · simp only [hm, if_false, Bool.false_eq_true]
          cases hd : o.data with
          | int v => rfl
          | pair a b =>
            have hcount : unmarkedCount h = unmarkedCount (setMark h r) + 1 :=
              unmarkedCount_setMark hl (by simpa using hm)
            have hf' : unmarkedCount (setMark h r) < f := by omega
            have hg' : unmarkedCount (setMark h r) < g := by omega
            have e1 : markFuel f a (setMark h r) = markFuel g a (setMark h r) :=
              ih g a (setMark h r) hf' hg'
            have hX : unmarkedCount (markFuel f a (setMark h r)) ≤ unmarkedCount (setMark h r) :=
              unmarkedCount_markFuel_le f a (setMark h r)
            have e2 : markFuel f b (markFuel f a (setMark h r)) =
                markFuel g b (markFuel f a (setMark h r)) :=
              ih g b _ (by omega) (by omega)
            show markFuel f b (markFuel f a (setMark h r)) =
              markFuel g b (markFuel g a (setMark h r))
            rw [e2, e1]

theorem markFuel_eq_mark {f : Nat} {r : Nat} {h : Heap} (hf : unmarkedCount h < f) :
    markFuel f r h = mark r h :=
  markFuel_fuel_insensitive f (unmarkedCount h + 1) r h hf (Nat.lt_succ_self _)

theorem graph_mark (r : Nat) (h : Heap) : graph (mark r h) = graph h :=
  graph_markFuel _ r h

theorem map_fst_mark (r : Nat) (h : Heap) : (mark r h).map Prod.fst = h.map Prod.fst :=
  map_fst_markFuel _ r h

theorem mark_of_marked {h : Heap} {r : Nat} (hm : isMarked h r = true) : mark r h = h :=
  markFuel_of_marked hm _

/-! ### Reachability lemmas -/

theorem reachA_dst {g : Nat → Option ObjData} {A : Set Nat} {r x : Nat}
    (h : ReachA g A r x) : (g x).isSome ∧ x ∉ A := by
  cases h with
  | refl h1 h2 => exact ⟨h1, h2⟩
  | step y z hy hc hz hnz => exact ⟨hz, hnz⟩

theorem reachA_root {g : Nat → Option ObjData} {A : Set Nat} {r x : Nat}
    (h : ReachA g A r x) : (g r).isSome ∧ r ∉ A := by
  induction h with
  | refl h1 h2 => exact ⟨h1, h2⟩
  | step y z hy hc hz hnz ih => exact ih

theorem reachA_mono {g : Nat → Option ObjData} {A B : Set Nat} (hAB : A ⊆ B) {r x : Nat}
    (h : ReachA g B r x) : ReachA g A r x := by
  induction h with
  | refl h1 h2 => exact .refl h1 (fun hx => h2 (hAB hx))
  | step y z hy hc hz hnz ih => exact .step y z ih hc hz (fun hx => hnz (hAB hx))

theorem reachA_prepend {g : Nat → Option ObjData} {A : Set Nat} {r a b c x : Nat}
    (hg : g r = some (.pair a b)) (hr : r ∉ A) (hc : c = a ∨ c = b)
    (h : ReachA g A c x) : ReachA g A r x := by
  induction h with
  | refl h1 h2 =>
    exact .step r c (.refl (by rw [hg]; rfl) hr) ⟨a, b, hg, hc⟩ h1 h2
  | step y z hy hcyz hz hnz ih => exact .step y z ih hcyz hz hnz

theorem reachA_int {g : Nat → Option ObjData} {A : Set Nat} {r x : Nat} {v : Int}
    (hg : g r = some (.int v)) (h : ReachA g A r x) : x = r := by
  induction h with
  | refl h1 h2 => rfl
  | step y z hy hcyz hz hnz ih =>
    subst ih
    obtain ⟨p, q, hpq, hzpq⟩ := hcyz
    rw [hg] at hpq
    exact absurd hpq (by simp)

/-- The marked set after the recursive descent of `mark` into the two
children of a freshly marked pair: the central set identity behind the
cycle-safe trace. -/
theorem mark_pair_set (g : Nat → Option ObjData) (M : Set Nat) (r a b : Nat)
    (hg : g r = some (.pair a b)) (hr : r ∉ M) :
    ((insert r M ∪ { x | ReachA g (insert r M) a x })
      ∪ { x | ReachA g (insert r M ∪ { x | ReachA g (insert r M) a x }) b x })
    = M ∪ { x | ReachA g M r x } := by
  have hMA : M ⊆ insert r M := Set.subset_insert r M
  have hMB : M ⊆ insert r M ∪ { x | ReachA g (insert r M) a x } :=
    hMA.trans Set.subset_union_left
  ext x
  constructor
  · rintro ((hA | hRa) | hRb)
    · rcases Set.mem_insert_iff.1 hA with h1 | h1
      · subst h1
        exact Or.inr (ReachA.refl (by rw [hg]; rfl) hr)
      · exact Or.inl h1
    · exact Or.inr (reachA_prepend hg hr (Or.inl rfl) (reachA_mono hMA hRa))
    · exact Or.inr (reachA_prepend hg hr (Or.inr rfl) (reachA_mono hMB hRb))
  · rintro (hM | hR)
    · exact Or.inl (Or.inl (hMA hM))
    · induction hR with
      | refl h1 h2 => exact Or.inl (Or.inl (Set.mem_insert r M))
      | step y z hy hcyz hz hnz ih =>
        rcases ih with (hyA | hyRa) | hyRb
        · rcases Set.mem_insert_iff.1 hyA with h1 | h1
          · obtain ⟨p, q, hpq, hzpq⟩ := hcyz
            rw [h1, hg] at hpq
            have hab : ObjData.pair a b = ObjData.pair p q := by injection hpq
            have hpa : p = a := by injection hab with h2 h3; exact h2.symm
            have hqb : q = b := by injection hab with h2 h3; exact h3.symm
            have hz' : z = a ∨ z = b := by
              rcases hzpq with h2 | h2
              · exact Or.inl (h2.trans hpa)
              · exact Or.inr (h2.trans hqb)
            rcases hz' with hza | hzb
            · by_cases hzA : z ∈ insert r M
              · exact Or.inl (Or.inl hzA)
              · refine Or.inl (Or.inr ?_)
                show ReachA g (insert r M) a z
                rw [hza] at hz hzA ⊢
                exact ReachA.refl hz hzA
            · by_cases hzB : z ∈ insert r M ∪ { x | ReachA g (insert r M) a x }
              · exact Or.inl hzB
              · refine Or.inr ?_
                show ReachA g _ b z
                rw [hzb] at hz hzB ⊢
                exact ReachA.refl hz hzB
          · exact absurd h1 (reachA_dst hy).2
        · by_cases hzA : z ∈ insert r M
          · exact Or.inl (Or.inl hzA)
          · exact Or.inl (Or.inr (ReachA.step y z hyRa hcyz hz hzA))
        · by_cases hzB : z ∈ insert r M ∪ { x | ReachA g (insert r M) a x }
          · exact Or.inl hzB
          · exact Or.inr (ReachA.step y z hyRb hcyz hz hzB)

/-- What one call of the recursive mark marks: exactly the identities
reachable from the root along paths of previously unmarked objects. -/
theorem markedSet_markFuel :
    ∀ (f : Nat) (r : Nat) (h : Heap), unmarkedCount h < f →
      markedSet (markFuel f r h) =
        markedSet h ∪ { x | ReachA (graph h) (markedSet h) r x } := by
  intro f
  induction f with
  | zero => intro r h hf; omega
  | succ f ih =>
    intro r h hf
    rw [markFuel_succ]
    cases hl : lookupObj h r with
    | none =>
      have hg : graph h r = none := by unfold graph; rw [hl]; rfl
      have hnone : ∀ x, ¬ ReachA (graph h) (markedSet h) r x := by
        intro x hx
        have := (reachA_root hx).1
        rw [hg] at this
        exact absurd this (by simp)
      ext x
      simp only [Set.mem_union, Set.mem_setOf_eq]
      exact ⟨fun hx => Or.inl hx, fun hx => hx.elim id (fun hx => absurd hx (hnone x))⟩
    | some o =>
      by_cases hm : o.marked
      · have hrM : r ∈ markedSet h := (mem_markedSet_iff h r).2 ((isMarked_iff h r).2 ⟨o, hl, hm⟩)
        have hnone : ∀ x, ¬ ReachA (graph h) (markedSet h) r x := fun x hx =>
          (reachA_root hx).2 hrM
        simp only [hm, if_true]
        ext x
        simp only [Set.mem_union, Set.mem_setOf_eq]
        exact ⟨fun hx => Or.inl hx, fun hx => hx.elim id (fun hx => absurd hx (hnone x))⟩
      · have hmf : o.marked = false := by simpa using hm
        have hrM : r ∉ markedSet h := not_mem_markedSet hl hmf
        simp only [hm, if_false, Bool.false_eq_true]
        cases hd : o.data with
        | int v =>
          show markedSet (setMark h r) = _
          have hg : graph h r = some (.int v) := by unfold graph; rw [hl]; simp [hd]
          rw [markedSet_setMark hl]
          ext x
          simp only [Set.mem_insert_iff, Set.mem_union, Set.mem_setOf_eq]
          constructor
          · rintro (hx | hx)
            · refine Or.inr ?_
              rw [hx]
              exact ReachA.refl (by rw [hg]; rfl) hrM
            · exact Or.inl hx
          · rintro (hx | hx)
            · exact Or.inr hx
            · exact Or.inl (reachA_int hg hx)
        | pair a b =>
          show markedSet (markFuel f b (markFuel f a (setMark h r))) = _
          have hg : graph h r = some (.pair a b) := by unfold graph; rw [hl]; simp [hd]
          have hcount : unmarkedCount h = unmarkedCount (setMark h r) + 1 :=
            unmarkedCount_setMark hl hmf
          have hf1 : unmarkedCount (setMark h r) < f := by omega
          have hf2 : unmarkedCount (markFuel f a (setMark h r)) < f :=
            Nat.lt_of_le_of_lt (unmarkedCount_markFuel_le f a (setMark h r)) hf1
          rw [ih b _ hf2, ih a _ hf1, graph_markFuel, graph_setMark,
            markedSet_setMark hl]
          exact mark_pair_set (graph h) (markedSet h) r a b hg hrM

/-- Marked set after `mark r h`. -/
theorem markedSet_mark (r : Nat) (h : Heap) :
    markedSet (mark r h) = markedSet h ∪ { x | ReachA (graph h) (markedSet h) r x } :=
  markedSet_markFuel _ r h (Nat.lt_succ_self _)

theorem markedSet_empty_of_allUnmarked {h : Heap} (hu : AllUnmarked h) :
    markedSet h = ∅ := by
  ext x
  simp only [markedSet, Set.mem_setOf_eq, Set.mem_empty_iff_false, iff_false]
  intro hx
  obtain ⟨o, hl, ho⟩ := (isMarked_iff h x).1 hx
  have := hu (x, o) (lookupObj_mem hl)
  simp [ho] at this

/-! ### Marking from all roots -/

/-- A set of identities closed under the child edges of `g`. -/
def EdgeClosed (g : Nat → Option ObjData) (M : Set Nat) : Prop :=
  ∀ y ∈ M, ∀ z, IsChild g y z → (g z).isSome → z ∈ M

theorem edgeClosed_empty (g : Nat → Option ObjData) : EdgeClosed g ∅ := by
  rintro y hy
  cases hy

theorem reachA_cases_of_edgeClosed {g : Nat → Option ObjData} {M : Set Nat} {r x : Nat}
    (hM : EdgeClosed g M) (h : ReachA g ∅ r x) : x ∈ M ∨ ReachA g M r x := by
  induction h with
  | refl h1 h2 =>
    by_cases hr : r ∈ M
    · exact Or.inl hr
    · exact Or.inr (.refl h1 hr)
  | step y z hy hc hz hnz ih =>
    rcases ih with hyM | hyR
    · exact Or.inl (hM y hyM z hc hz)
    · by_cases hzM : z ∈ M
      · exact Or.inl hzM
      · exact Or.inr (.step y z hyR hc hz hzM)

theorem union_reachA_eq {g : Nat → Option ObjData} {M : Set Nat} {r : Nat}
    (hM : EdgeClosed g M) :
    M ∪ { x | ReachA g M r x } = M ∪ { x | ReachA g ∅ r x } := by
  ext x
  constructor
  · rintro (h | h)
    · exact Or.inl h
    · exact Or.inr (reachA_mono (Set.empty_subset M) h)
  · rintro (h | h)
    · exact Or.inl h
    · rcases reachA_cases_of_edgeClosed hM h with h1 | h1
      · exact Or.inl h1
      · exact Or.inr h1

theorem edgeClosed_union_reachA {g : Nat → Option ObjData} {M : Set Nat} {r : Nat}
    (hM : EdgeClosed g M) :
    EdgeClosed g (M ∪ { x | ReachA g M r x }) := by
  rintro y (hyM | hyR) z hc hz
  · exact Or.inl (hM y hyM z hc hz)
  · by_cases hzM : z ∈ M
    · exact Or.inl hzM
    · exact Or.inr (.step y z hyR hc hz hzM)

/-- Marked set after the `markAll` loop: what was marked before, together
with everything reachable from some root. -/
theorem markedSet_markAllHeap :
    ∀ (roots : List Nat) (h : Heap), EdgeClosed (graph h) (markedSet h) →
      markedSet (markAllHeap roots h) =
          markedSet h ∪ { x | ∃ r ∈ roots, ReachA (graph h) ∅ r x } ∧
        graph (markAllHeap roots h) = graph h ∧
        EdgeClosed (graph h) (markedSet (markAllHeap roots h)) := by
  intro roots
  induction roots with
  | nil =>
    intro h hM
    refine ⟨?_, rfl, hM⟩
    show markedSet h = _
    ext x
    simp
  | cons r rs ih =>
    intro h hM
    obtain ⟨hset, hgr, hcl⟩ := ih h hM
    have step1 : markAllHeap (r :: rs) h = mark r (markAllHeap rs h) := rfl
    have hms := markedSet_mark r (markAllHeap rs h)
    rw [hgr] at hms
    have key := union_reachA_eq (M := markedSet (markAllHeap rs h)) (r := r) hcl
    refine ⟨?_, ?_, ?_⟩
    · rw [step1, hms]
      have : markedSet (markAllHeap rs h) ∪
          { x | ReachA (graph h) (markedSet (markAllHeap rs h)) r x } =
          markedSet (markAllHeap rs h) ∪ { x | ReachA (graph h) ∅ r x } := key
      rw [this, hset]
      ext x
      simp only [Set.mem_union, Set.mem_setOf_eq, List.mem_cons]
      constructor
      · rintro ((hx | hx) | hx)
        · exact Or.inl hx
        · obtain ⟨r', hr', hx⟩ := hx
          exact Or.inr ⟨r', Or.inr hr', hx⟩
        · exact Or.inr ⟨r, Or.inl rfl, hx⟩
      · rintro (hx | ⟨r', hr' | hr', hx⟩)
        · exact Or.inl (Or.inl hx)
        · subst hr'
          exact Or.inr hx
        · exact Or.inl (Or.inr ⟨r', hr', hx⟩)
    · rw [step1, graph_mark, hgr]
    · rw [step1, hms]
      exact edgeClosed_union_reachA hcl

/-! ### Sweep lemmas -/

theorem sweepAux_nil : sweepAux [] = ([], 0) := rfl

theorem sweepAux_cons (i : Nat) (o : Obj) (rest : Heap) :
    sweepAux ((i, o) :: rest) =
      if o.marked then ((i, { o with marked := false }) :: (sweepAux rest).1, (sweepAux rest).2)
      else ((sweepAux rest).1, (sweepAux rest).2 + 1) := by
  show (let p := sweepAux rest
        if o.marked then ((i, { o with marked := false }) :: p.1, p.2) else (p.1, p.2 + 1)) = _
  by_cases hm : o.marked <;> simp [hm]

theorem sweepAux_fst_eq_filterMap (h : Heap) :
    (sweepAux h).1 = h.filterMap
      (fun e => if e.2.marked then some (e.1, { marked := false, data := e.2.data }) else none) := by
  induction h with
  | nil => rfl
  | cons e rest ih =>
    obtain ⟨i, o⟩ := e
    rw [sweepAux_cons]
    by_cases hm : o.marked <;> simp [hm, List.filterMap_cons, ih]

theorem sweepAux_snd_eq_unmarkedCount (h : Heap) :
    (sweepAux h).2 = unmarkedCount h := by
  induction h with
  | nil => rfl
  | cons e rest ih =>
    obtain ⟨i, o⟩ := e
    rw [sweepAux_cons]
    by_cases hm : o.marked <;> simp [hm, unmarkedCount, List.filter] at ih ⊢ <;> omega

theorem sweepAux_fst_allUnmarked (h : Heap) : AllUnmarked (sweepAux h).1 := by
  intro e he
  rw [sweepAux_fst_eq_filterMap] at he
  obtain ⟨e', he', hne⟩ := List.mem_filterMap.1 he
  by_cases hm : e'.2.marked
  · rw [if_pos hm] at hne
    injection hne with hne
    rw [← hne]
  · rw [if_neg hm] at hne
    cases hne

theorem sweepAux_map_fst_sublist (h : Heap) :
    ((sweepAux h).1.map Prod.fst).Sublist (h.map Prod.fst) := by
  induction h with
  | nil => exact List.Sublist.refl _
  | cons e rest ih =>
    obtain ⟨i, o⟩ := e
    rw [sweepAux_cons]
    by_cases hm : o.marked
    · simpa [hm] using ih.cons₂ i
    · simpa [hm] using ih.cons i

theorem lookup_sweepAux_isSome_of_marked {h : Heap} {x : Nat}
    (hm : isMarked h x = true) : (lookupObj (sweepAux h).1 x).isSome := by
  induction h with
  | nil => simp [isMarked, lookupObj] at hm
  | cons e rest ih =>
    obtain ⟨i, o⟩ := e
    rw [sweepAux_cons]
    by_cases hix : i = x
    · subst hix
      have ho : o.marked = true := by
        simpa [isMarked, lookupObj_cons] using hm
      simp [ho, lookupObj_cons]
    · have hm' : isMarked rest x = true := by
        simpa [isMarked, lookupObj_cons, hix] using hm
      by_cases ho : o.marked <;> simp [ho, lookupObj_cons, hix, ih hm']

theorem lookup_sweepAux_of_nodup {h : Heap} (hnd : (h.map Prod.fst).Nodup) (x : Nat) :
    lookupObj (sweepAux h).1 x =
      match lookupObj h x with
      | none => none
      | some o => if o.marked then some { marked := false, data := o.data } else none := by
  induction h with
  | nil => rfl
  | cons e rest ih =>
    obtain ⟨i, o⟩ := e
    rw [List.map_cons, List.nodup_cons] at hnd
    rw [sweepAux_cons]
    by_cases hix : i = x
    · subst hix
      by_cases ho : o.marked
      · simp [ho, lookupObj_cons]
      · have hrest : lookupObj rest i = none := by
          cases hr : lookupObj rest i with
          | none => rfl
          | some o' => exact absurd (List.mem_map.2 ⟨(i, o'), lookupObj_mem hr, rfl⟩) hnd.1
        have : lookupObj (sweepAux rest).1 i = none := by
          rw [ih hnd.2, hrest]
        simp [ho, lookupObj_cons, this]
    · by_cases ho : o.marked <;> simp [ho, lookupObj_cons, hix, ih hnd.2]

theorem clearHeap_of_allMarked {h : Heap} (hall : ∀ e ∈ h, e.2.marked = true) :
    sweepAux h = (h.map (fun e => (e.1, { marked := false, data := e.2.data })), 0) := by
  induction h with
  | nil => rfl
  | cons e rest ih =>
    obtain ⟨i, o⟩ := e
    have ho : o.marked = true := hall (i, o) (List.mem_cons_self _ _)
    rw [sweepAux_cons, if_pos ho, ih (fun e he => hall e (List.mem_cons_of_mem _ he))]
    rfl

/-! ### VM-level unfoldings and auxiliary facts -/

theorem vmEq {v1 v2 : VM} (h1 : v1.firstObject = v2.firstObject)
    (h2 : v1.stack = v2.stack) (h3 : v1.numObjects = v2.numObjects)
    (h4 : v1.maxObjects = v2.maxObjects) (h5 : v1.nextId = v2.nextId) : v1 = v2 := by
  cases v1
  cases v2
  simp_all

theorem sweep_def (vm : VM) :
    sweep vm = { vm with
                 firstObject := (sweepAux vm.firstObject).1,
                 numObjects := vm.numObjects - (sweepAux vm.firstObject).2 } := rfl

theorem gc_def (vm : VM) :
    gc vm = { firstObject := (sweepAux (markAllHeap vm.stack vm.firstObject)).1,
              stack := vm.stack,
              numObjects := vm.numObjects - (sweepAux (markAllHeap vm.stack vm.firstObject)).2,
              maxObjects := (vm.numObjects - (sweepAux (markAllHeap vm.stack vm.firstObject)).2) * 2,
              nextId := vm.nextId } := rfl

theorem mem_updateObj {h : Heap} {x : Nat} {f : Obj → Obj} {e : Nat × Obj}
    (he : e ∈ updateObj h x f) : e ∈ h ∨ ∃ o, (x, o) ∈ h ∧ e = (x, f o) := by
  induction h with
  | nil => simp [updateObj] at he
  | cons e' rest ih =>
    obtain ⟨i, o⟩ := e'
    by_cases hix : i = x
    · subst hix
      simp only [updateObj, if_pos rfl] at he
      rcases List.mem_cons.1 he with h1 | h1
      · exact Or.inr ⟨o, List.mem_cons_self _ _, h1⟩
      · exact Or.inl (List.mem_cons_of_mem _ h1)
    · simp only [updateObj, if_neg hix] at he
      rcases List.mem_cons.1 he with h1 | h1
      · exact Or.inl (h1 ▸ List.mem_cons_self _ _)
      · rcases ih h1 with h2 | ⟨o', h2, h3⟩
        · exact Or.inl (List.mem_cons_of_mem _ h2)
        · exact Or.inr ⟨o', List.mem_cons_of_mem _ h2, h3⟩

theorem map_fst_markAllHeap (roots : List Nat) (h : Heap) :
    (markAllHeap roots h).map Prod.fst = h.map Prod.fst := by
  induction roots with
  | nil => rfl
  | cons r rs ih =>
    show ((mark r (markAllHeap rs h)).map Prod.fst) = h.map Prod.fst
    rw [map_fst_mark, ih]

/-- Forget the mark bit of an entry (used to compare heaps up to marks). -/
def clearEntry (e : Nat × Obj) : Nat × Obj :=
  (e.1, { marked := false, data := e.2.data })

theorem clearMap_updateObj (h : Heap) (x : Nat) (f : Obj → Obj)
    (hf : ∀ o, (f o).data = o.data) :
    (updateObj h x f).map clearEntry = h.map clearEntry := by
  induction h with
  | nil => rfl
  | cons e rest ih =>
    obtain ⟨i, o⟩ := e
    by_cases hix : i = x
    · simp [updateObj, hix, clearEntry, hf o]
    · simp [updateObj, hix, clearEntry, ih]

theorem clearMap_markFuel (f : Nat) :
    ∀ (r : Nat) (h : Heap), (markFuel f r h).map clearEntry = h.map clearEntry := by
  induction f with
  | zero => intro r h; rfl
  | succ f ih =>
    intro r h
    rw [markFuel_succ]
    cases hl : lookupObj h r with
    | none => rfl
    | some o =>
      by_cases hm : o.marked
      · simp [hm]
      · simp only [hm, if_false, Bool.false_eq_true]
        cases hd : o.data with
        | int v => exact clearMap_updateObj h r _ (fun o => rfl)
        | pair a b =>
          show (markFuel f b (markFuel f a (setMark h r))).map clearEntry = _
          rw [ih, ih]
          exact clearMap_updateObj h r _ (fun o => rfl)

theorem clearMap_markAllHeap (roots : List Nat) (h : Heap) :
    (markAllHeap roots h).map clearEntry = h.map clearEntry := by
  induction roots with
  | nil => rfl
  | cons r rs ih =>
    show ((mark r (markAllHeap rs h)).map clearEntry) = h.map clearEntry
    rw [mark, clearMap_markFuel, ih]

theorem clearMap_eq_self_of_allUnmarked {h : Heap} (hu : AllUnmarked h) :
    h.map clearEntry = h := by
  induction h with
  | nil => rfl
  | cons e rest ih =>
    obtain ⟨i, o⟩ := e
    have ho : o.marked = false := hu (i, o) (List.mem_cons_self _ _)
    have : clearEntry (i, o) = (i, o) := by
      unfold clearEntry
      cases o
      simp_all
    rw [List.map_cons, this, ih (fun e he => hu e (List.mem_cons_of_mem _ he))]

/-- A reachability path transfers to a second pointer graph that agrees on a
set containing every node reachable from the root. -/
theorem reachA_transfer {g g2 : Nat → Option ObjData} {R : Set Nat} {r x : Nat}
    (hagree : ∀ y ∈ R, g2 y = g y)
    (hRsub : ∀ y, ReachA g ∅ r y → y ∈ R)
    (h : ReachA g ∅ r x) : ReachA g2 ∅ r x := by
  induction h with
  | refl h1 h2 =>
    have hr : r ∈ R := hRsub r (.refl h1 h2)
    exact .refl (by rw [hagree r hr]; exact h1) h2
  | step y z hy hc hz hnz ih =>
    have hyR : y ∈ R := hRsub y hy
    have hzR : z ∈ R := hRsub z (.step y z hy hc hz hnz)
    obtain ⟨a, b, hab, hzab⟩ := hc
    refine .step y z ih ⟨a, b, ?_, hzab⟩ ?_ hnz
    · rw [hagree y hyR]
      exact hab
    · rw [hagree z hzR]
      exact hz

/-! ### The steady-state invariant of reachable VM states -/

/-- Well-formedness of a VM outside a collection cycle: every registry
object is unmarked, registry identities are distinct, and all of them are
below the fresh-identity supply. -/
def WfVM (vm : VM) : Prop :=
  AllUnmarked vm.firstObject ∧ (vm.firstObject.map Prod.fst).Nodup ∧
    ∀ i ∈ vm.firstObject.map Prod.fst, i < vm.nextId

theorem wf_newVM : WfVM newVM := by
  refine ⟨?_, ?_, ?_⟩ <;> simp [newVM, AllUnmarked]

theorem wf_stack_irrel {vm : VM} (hw : WfVM vm) (s : List Nat) :
    WfVM { vm with stack := s } := hw

theorem wf_gc {vm : VM} (hw : WfVM vm) : WfVM (gc vm) := by
  obtain ⟨hu, hnd, hb⟩ := hw
  have hids : ((sweepAux (markAllHeap vm.stack vm.firstObject)).1.map Prod.fst).Sublist
      (vm.firstObject.map Prod.fst) := by
    have h1 := sweepAux_map_fst_sublist (markAllHeap vm.stack vm.firstObject)
    rw [map_fst_markAllHeap] at h1
    exact h1
  rw [gc_def]
  refine ⟨sweepAux_fst_allUnmarked _, hnd.sublist hids, ?_⟩
  intro i hi
  exact hb i (hids.subset hi)

theorem wf_allocRaw {vm : VM} (hw : WfVM vm) (t : ObjectType) : WfVM (allocRaw vm t).1 := by
  obtain ⟨hu, hnd, hb⟩ := hw
  refine ⟨?_, ?_, ?_⟩
  · intro e he
    rcases List.mem_cons.1 he with h1 | h1
    · rw [h1]
    · exact hu e h1
  · show ((vm.nextId, Obj.mk false (initData t)) :: vm.firstObject).map Prod.fst |>.Nodup
    rw [List.map_cons, List.nodup_cons]
    exact ⟨fun hmem => absurd (hb _ hmem) (lt_irrefl _), hnd⟩
  · intro i hi
    show i < vm.nextId + 1
    rcases List.mem_cons.1 hi with h1 | h1
    · omega
    · have := hb i h1
      omega

theorem wf_newObject {vm : VM} (hw : WfVM vm) (t : ObjectType) : WfVM (newObject vm t).1 := by
  unfold newObject
  by_cases htr : vm.numObjects = vm.maxObjects
  · rw [if_pos htr]
    exact wf_allocRaw (wf_gc hw) t
  · rw [if_neg htr]
    exact wf_allocRaw hw t

theorem wf_update {vm : VM} (hw : WfVM vm) (x : Nat) (f : Obj → Obj)
    (hf : ∀ o, (f o).marked = o.marked) :
    WfVM { vm with firstObject := updateObj vm.firstObject x f } := by
  obtain ⟨hu, hnd, hb⟩ := hw
  refine ⟨?_, ?_, ?_⟩
  · intro e he
    rcases mem_updateObj he with h1 | ⟨o, h1, h2⟩
    · exact hu e h1
    · rw [h2]
      show (f o).marked = false
      rw [hf o]
      exact hu (x, o) h1
  · show ((updateObj vm.firstObject x f).map Prod.fst).Nodup
    rw [updateObj_map_fst]
    exact hnd
  · intro i hi
    rw [show ({ vm with firstObject := updateObj vm.firstObject x f } : VM).firstObject
        = updateObj vm.firstObject x f from rfl, updateObj_map_fst] at hi
    exact hb i hi

theorem wf_setValue {vm : VM} (hw : WfVM vm) (x : Nat) (v : Int) :
    WfVM (setValue vm x v) :=
  wf_update hw x _ (fun _o => rfl)

theorem wf_setTailOf {vm : VM} (hw : WfVM vm) (x t : Nat) :
    WfVM (setTailOf vm x t) := by
  refine wf_update hw x _ (fun o => ?_)
  cases hd : o.data <;> rfl

theorem wf_setHeadOf {vm : VM} (hw : WfVM vm) (x hd : Nat) :
    WfVM (setHeadOf vm x hd) := by
  refine wf_update hw x _ (fun o => ?_)
  cases hdd : o.data <;> rfl

/-! ### Explicit runs of the machine-facing operations -/

theorem gc_stack (vm : VM) : (gc vm).stack = vm.stack := rfl

theorem gc_nextId (vm : VM) : (gc vm).nextId = vm.nextId := rfl

theorem gc_maxObjects_eq (vm : VM) : (gc vm).maxObjects = (gc vm).numObjects * 2 := rfl

/-- The state `newObject` consults after its trigger check. -/
def preAlloc (vm : VM) : VM :=
  if vm.numObjects = vm.maxObjects then gc vm else vm

theorem preAlloc_stack (vm : VM) : (preAlloc vm).stack = vm.stack := by
  unfold preAlloc
  by_cases h : vm.numObjects = vm.maxObjects <;> simp [h, gc_stack]

theorem preAlloc_nextId (vm : VM) : (preAlloc vm).nextId = vm.nextId := by
  unfold preAlloc
  by_cases h : vm.numObjects = vm.maxObjects <;> simp [h, gc_nextId]

theorem newObject_eq (vm : VM) (t : ObjectType) :
    newObject vm t = allocRaw (preAlloc vm) t := rfl

theorem pushInt_run (vm : VM) (v : Int) (hlen : vm.stack.length < STACK_MAX) :
    pushInt vm v =
      .ok { firstObject := (vm.nextId, { marked := false, data := .int v }) ::
              (preAlloc vm).firstObject,
            stack := vm.nextId :: vm.stack,
            numObjects := (preAlloc vm).numObjects + 1,
            maxObjects := (preAlloc vm).maxObjects,
            nextId := vm.nextId + 1 } := by
  unfold pushInt
  rw [newObject_eq]
  have hid : (preAlloc vm).nextId = vm.nextId := preAlloc_nextId vm
  have hst : (preAlloc vm).stack = vm.stack := preAlloc_stack vm
  show push (setValue (allocRaw (preAlloc vm) .OBJ_INT).1 (preAlloc vm).nextId v)
      (preAlloc vm).nextId = _
  unfold allocRaw setValue push updateObj
  simp only [if_pos rfl, initData]
  rw [if_pos]
  · show Except.ok (VM.mk _ ((preAlloc vm).nextId :: (preAlloc vm).stack) _ _ _) = _
    rw [hid, hst]
    simp
  · show (preAlloc vm).stack.length < STACK_MAX
    rw [hst]
    exact hlen

theorem pushInt_overflow (vm : VM) (v : Int) (hlen : STACK_MAX ≤ vm.stack.length) :
    pushInt vm v = .error "Stack overflow!" := by
  unfold pushInt
  rw [newObject_eq]
  have hst : (preAlloc vm).stack = vm.stack := preAlloc_stack vm
  show push (setValue (allocRaw (preAlloc vm) .OBJ_INT).1 (preAlloc vm).nextId v)
      (preAlloc vm).nextId = _
  unfold allocRaw setValue push
  rw [if_neg]
  show ¬ (preAlloc vm).stack.length < STACK_MAX
  rw [hst]
  omega

theorem pushPair_run (vm : VM) (a b : Nat) (rest : List Nat)
    (hs : vm.stack = a :: b :: rest) (hlen : rest.length < STACK_MAX) :
    pushPair vm =
      .ok ({ firstObject := (vm.nextId, { marked := false, data := .pair b a }) ::
               (preAlloc vm).firstObject,
             stack := vm.nextId :: rest,
             numObjects := (preAlloc vm).numObjects + 1,
             maxObjects := (preAlloc vm).maxObjects,
             nextId := vm.nextId + 1 }, vm.nextId) := by
  have hst2 : (preAlloc vm).stack = a :: b :: rest := by rw [preAlloc_stack, hs]
  have hid : (preAlloc vm).nextId = vm.nextId := preAlloc_nextId vm
  unfold pushPair
  rw [newObject_eq]
  simp only [allocRaw, pop, setTailOf, setHeadOf, push, updateObj, hst2, hid, initData]
  simp only [eq_self_iff_true, if_true]
  rw [if_pos (by simpa using hlen)]

theorem pushPair_underflow (vm : VM) (hs : vm.stack.length < 2) :
    pushPair vm = .error "Stack underflow!" := by
  unfold pushPair
  rw [newObject_eq]
  rcases hst : vm.stack with _ | ⟨a, rest⟩
  · have hst2 : (preAlloc vm).stack = [] := by rw [preAlloc_stack, hst]
    simp [allocRaw, pop, hst2]
  · rcases rest with _ | ⟨b, rest2⟩
    · have hst2 : (preAlloc vm).stack = [a] := by rw [preAlloc_stack, hst]
      simp [allocRaw, pop, setTailOf, hst2]
    · rw [hst] at hs
      simp only [List.length_cons] at hs
      omega

theorem pushPair_overflow (vm : VM) (a b : Nat) (rest : List Nat)
    (hs : vm.stack = a :: b :: rest) (hlen : ¬ rest.length < STACK_MAX) :
    pushPair vm = .error "Stack overflow!" := by
  have hst2 : (preAlloc vm).stack = a :: b :: rest := by rw [preAlloc_stack, hs]
  unfold pushPair
  rw [newObject_eq]
  simp only [allocRaw, pop, setTailOf, setHeadOf, push, updateObj, hst2, preAlloc_nextId vm,
    initData]
  simp only [eq_self_iff_true, if_true]
  rw [if_neg (by simpa using hlen)]

/-- Inversion of a successful `pushPair`: the exact precondition and the
exact resulting state. -/
theorem pushPair_ok_inv {vm vm' : VM} {x : Nat} (h : pushPair vm = .ok (vm', x)) :
    ∃ a b rest, vm.stack = a :: b :: rest ∧ rest.length < STACK_MAX ∧
      vm' = { firstObject := (vm.nextId, { marked := false, data := .pair b a }) ::
                (preAlloc vm).firstObject,
              stack := vm.nextId :: rest,
              numObjects := (preAlloc vm).numObjects + 1,
              maxObjects := (preAlloc vm).maxObjects,
              nextId := vm.nextId + 1 } ∧ x = vm.nextId := by
  rcases hst : vm.stack with _ | ⟨a, rest⟩
  · rw [pushPair_underflow vm (by rw [hst]; simp)] at h
    cases h
  rcases rest with _ | ⟨b, rest2⟩
  · rw [pushPair_underflow vm (by rw [hst]; simp)] at h
    cases h
  by_cases hlen : rest2.length < STACK_MAX
  · rw [pushPair_run vm a b rest2 hst hlen] at h
    injection h with h
    injection h with h1 h2
    exact ⟨a, b, rest2, rfl, hlen, h1.symm, h2.symm⟩
  · rw [pushPair_overflow vm a b rest2 hst hlen] at h
    cases h

/-- Inversion of a successful `pushInt`. -/
theorem pushInt_ok_inv {vm vm' : VM} {v : Int} (h : pushInt vm v = .ok vm') :
    vm.stack.length < STACK_MAX ∧
      vm' = { firstObject := (vm.nextId, { marked := false, data := .int v }) ::
                (preAlloc vm).firstObject,
              stack := vm.nextId :: vm.stack,
              numObjects := (preAlloc vm).numObjects + 1,
              maxObjects := (preAlloc vm).maxObjects,
              nextId := vm.nextId + 1 } := by
  by_cases hlen : vm.stack.length < STACK_MAX
  · rw [pushInt_run vm v hlen] at h
    injection h with h
    exact ⟨hlen, h.symm⟩
  · rw [pushInt_overflow vm v (by omega)] at h
    cases h

theorem wf_consFresh {vm : VM} (hw : WfVM vm) (d : ObjData) (s : List Nat) (n m : Int) :
    WfVM { firstObject := (vm.nextId, { marked := false, data := d }) :: vm.firstObject,
           stack := s, numObjects := n, maxObjects := m, nextId := vm.nextId + 1 } := by
  obtain ⟨hu, hnd, hb⟩ := hw
  refine ⟨?_, ?_, ?_⟩
  · intro e he
    rcases List.mem_cons.1 he with h1 | h1
    · rw [h1]
    · exact hu e h1
  · show ((vm.nextId, Obj.mk false d) :: vm.firstObject).map Prod.fst |>.Nodup
    rw [List.map_cons, List.nodup_cons]
    exact ⟨fun hmem => absurd (hb _ hmem) (lt_irrefl _), hnd⟩
  · intro i hi
    show i < vm.nextId + 1
    rcases List.mem_cons.1 hi with h1 | h1
    · omega
    · have := hb i h1
      omega

theorem wf_preAlloc {vm : VM} (hw : WfVM vm) : WfVM (preAlloc vm) := by
  unfold preAlloc
  by_cases h : vm.numObjects = vm.maxObjects
  · rw [if_pos h]
    exact wf_gc hw
  · rw [if_neg h]
    exact hw

theorem wf_pushInt {vm vm' : VM} {v : Int} (hw : WfVM vm) (h : pushInt vm v = .ok vm') :
    WfVM vm' := by
  obtain ⟨hlen, hvm'⟩ := pushInt_ok_inv h
  rw [hvm']
  have := wf_consFresh (wf_preAlloc hw) (.int v) (vm.nextId :: vm.stack)
    ((preAlloc vm).numObjects + 1) (preAlloc vm).maxObjects
  rw [preAlloc_nextId] at this
  exact this

theorem wf_pushPair {vm vm' : VM} {x : Nat} (hw : WfVM vm) (h : pushPair vm = .ok (vm', x)) :
    WfVM vm' := by
  obtain ⟨a, b, rest, hst, hlen, hvm', hx⟩ := pushPair_ok_inv h
  rw [hvm']
  have := wf_consFresh (wf_preAlloc hw) (.pair b a) (vm.nextId :: rest)
    ((preAlloc vm).numObjects + 1) (preAlloc vm).maxObjects
  rw [preAlloc_nextId] at this
  exact this

/-- Every VM state reachable through the public operations is well-formed;
in particular (claim C8) every registry object is unmarked between cycles. -/
theorem reachableVM_wf {vm : VM} (h : ReachableVM vm) : WfVM vm := by
  induction h with
  | init => exact wf_newVM
  | step_pushInt vm v vm' hr hok ih => exact wf_pushInt ih hok
  | step_pushPair vm vm' x hr hok ih => exact wf_pushPair ih hok
  | step_pop vm vm' x hr hok ih =>
    rcases hst : vm.stack with _ | ⟨a, rest⟩
    · unfold pop at hok
      rw [hst] at hok
      cases hok
    · unfold pop at hok
      rw [hst] at hok
      injection hok with hok
      injection hok with h1 h2
      rw [← h2]
      exact wf_stack_irrel ih rest
  | step_gc vm hr ih => exact wf_gc ih

/-! ### A second collection with no mutator activity in between is a no-op -/

/-- The set of identities reachable from some operand-stack root. -/
def RootReach (vm : VM) : Set Nat :=
  { x | ∃ r ∈ vm.stack, ReachA (graph vm.firstObject) ∅ r x }

theorem gc_gc_main {vm : VM} (hw : WfVM vm) :
    gc (gc vm) = gc vm ∧
      (sweepAux (markAllHeap (gc vm).stack (gc vm).firstObject)).2 = 0 := by
  obtain ⟨hu, hnd, hb⟩ := hw
  have hM0 : markedSet vm.firstObject = ∅ := markedSet_empty_of_allUnmarked hu
  have hec : EdgeClosed (graph vm.firstObject) (markedSet vm.firstObject) := by
    rw [hM0]
    exact edgeClosed_empty _
  obtain ⟨hset, hgr, hcl⟩ := markedSet_markAllHeap vm.stack vm.firstObject hec
  set hM := markAllHeap vm.stack vm.firstObject with hMdef
  have hsetR : markedSet hM = RootReach vm := by
    rw [hset, hM0, Set.empty_union]
    rfl
  have hndM : (hM.map Prod.fst).Nodup := by
    rw [hMdef, map_fst_markAllHeap]
    exact hnd
  have hfo : (gc vm).firstObject = (sweepAux hM).1 := rfl
  have hst : (gc vm).stack = vm.stack := rfl
  set h2 := (sweepAux hM).1 with h2def
  have hu2 : AllUnmarked h2 := sweepAux_fst_allUnmarked hM
  have hnd2 : (h2.map Prod.fst).Nodup := hndM.sublist (sweepAux_map_fst_sublist hM)
  have hagree : ∀ y ∈ RootReach vm, graph h2 y = graph vm.firstObject y := by
    intro y hy
    have hym : isMarked hM y = true := by
      rw [← mem_markedSet_iff, hsetR]
      exact hy
    obtain ⟨o, hlo, ho⟩ := (isMarked_iff hM y).1 hym
    have hl2 : lookupObj h2 y = some { marked := false, data := o.data } := by
      rw [h2def, lookup_sweepAux_of_nodup hndM, hlo]
      simp [ho]
    have hgy : graph vm.firstObject y = graph hM y := (congrFun hgr y).symm
    rw [hgy]
    unfold graph
    rw [hl2, hlo]
    rfl
  have hdom2 : ∀ y, (lookupObj h2 y).isSome = true → y ∈ RootReach vm := by
    intro y hy
    rw [h2def, lookup_sweepAux_of_nodup hndM y] at hy
    cases hlo : lookupObj hM y with
    | none =>
      rw [hlo] at hy
      simp at hy
    | some o =>
      rw [hlo] at hy
      by_cases ho : o.marked
      · rw [← hsetR, mem_markedSet_iff]
        exact (isMarked_iff hM y).2 ⟨o, hlo, ho⟩
      · simp [ho] at hy
  have hM02 : markedSet h2 = ∅ := markedSet_empty_of_allUnmarked hu2
  have hec2 : EdgeClosed (graph h2) (markedSet h2) := by
    rw [hM02]
    exact edgeClosed_empty _
  obtain ⟨hset2, hgr2, hcl2⟩ := markedSet_markAllHeap vm.stack h2 hec2
  set hM2 := markAllHeap vm.stack h2 with hM2def
  have hset2R : markedSet hM2 = { x | ∃ r ∈ vm.stack, ReachA (graph h2) ∅ r x } := by
    rw [hset2, hM02, Set.empty_union]
  have hndM2 : (hM2.map Prod.fst).Nodup := by
    rw [hM2def, map_fst_markAllHeap]
    exact hnd2
  have allMarked2 : ∀ e ∈ hM2, e.2.marked = true := by
    intro e he
    have hids : e.1 ∈ hM2.map Prod.fst := List.mem_map.2 ⟨e, he, rfl⟩
    rw [hM2def, map_fst_markAllHeap] at hids
    obtain ⟨e', he', hfst⟩ := List.mem_map.1 hids
    have hsome : (lookupObj h2 e.1).isSome := by
      rw [← hfst]
      exact lookupObj_isSome_of_mem (show (e'.1, e'.2) ∈ h2 from he')
    obtain ⟨r, hr, hrx⟩ := hdom2 e.1 hsome
    have hrx2 : ReachA (graph h2) ∅ r e.1 :=
      reachA_transfer hagree (fun y hy => ⟨r, hr, hy⟩) hrx
    have hmem2 : e.1 ∈ markedSet hM2 := by
      rw [hset2R]
      exact ⟨r, hr, hrx2⟩
    obtain ⟨o, hlo, ho⟩ := (isMarked_iff hM2 e.1).1 hmem2
    have hlk : lookupObj hM2 e.1 = some e.2 :=
      lookupObj_eq_of_nodup hndM2 (show (e.1, e.2) ∈ hM2 from he)
    rw [hlk] at hlo
    injection hlo with hlo
    rw [hlo]
    exact ho
  have sweep2 := clearHeap_of_allMarked allMarked2
  have hclear : hM2.map (fun e => (e.1, { marked := false, data := e.2.data })) = h2 := by
    have step1 : hM2.map clearEntry = h2.map clearEntry := by
      rw [hM2def]
      exact clearMap_markAllHeap vm.stack h2
    have step2 : h2.map clearEntry = h2 := clearMap_eq_self_of_allUnmarked hu2
    exact step1.trans step2
  constructor
  · refine vmEq ?_ rfl ?_ ?_ rfl
    · show (sweepAux (markAllHeap (gc vm).stack (gc vm).firstObject)).1 = h2
      rw [hst, hfo, ← hM2def, sweep2, hclear]
    · show (gc vm).numObjects - ((sweepAux (markAllHeap (gc vm).stack (gc vm).firstObject)).2 : Int)
        = (gc vm).numObjects
      rw [hst, hfo, ← hM2def, sweep2]
      simp
    · show ((gc vm).numObjects - ((sweepAux (markAllHeap (gc vm).stack (gc vm).firstObject)).2 : Int)) * 2
        = (gc vm).maxObjects
      rw [hst, hfo, ← hM2def, sweep2]
      simp
      rfl
  · show (sweepAux (markAllHeap (gc vm).stack (gc vm).firstObject)).2 = 0
    rw [hst, hfo, ← hM2def, sweep2]

/-- Operand-stack roots that denote an allocated object survive a
collection cycle. -/
theorem root_survives_gc {vm : VM} (hu : AllUnmarked vm.firstObject) {r : Nat}
    (hr : r ∈ vm.stack) (hdom : (lookupObj vm.firstObject r).isSome) :
    (lookupObj (gc vm).firstObject r).isSome := by
  have hM0 : markedSet vm.firstObject = ∅ := markedSet_empty_of_allUnmarked hu
  have hec : EdgeClosed (graph vm.firstObject) (markedSet vm.firstObject) := by
    rw [hM0]
    exact edgeClosed_empty _
  obtain ⟨hset, hgr, hcl⟩ := markedSet_markAllHeap vm.stack vm.firstObject hec
  have hgi : (graph vm.firstObject r).isSome := (graph_isSome_iff _ _).2 hdom
  have hrm : r ∈ markedSet (markAllHeap vm.stack vm.firstObject) := by
    rw [hset]
    exact Or.inr ⟨r, hr, .refl hgi (Set.not_mem_empty r)⟩
  exact lookup_sweepAux_isSome_of_marked ((mem_markedSet_iff _ _).1 hrm)

/-! ### The claims -/

/-- C1. The recursive mark terminates on every object graph, cycles
included: marking an already-marked object is a no-op (first conjunct), any
fuel beyond the number of unmarked objects computes the same fixed result
(second conjunct, the termination bound of the recursion), and starting
from an all-unmarked heap it marks exactly the objects reachable from the
start object (third conjunct). -/
theorem mark_correct :
    (∀ (h : Heap) (r : Nat), isMarked h r = true → mark r h = h) ∧
    (∀ (h : Heap) (r : Nat) (f : Nat), unmarkedCount h < f → markFuel f r h = mark r h) ∧
    (∀ (h : Heap) (r : Nat), AllUnmarked h →
      ∀ x, isMarked (mark r h) x = true ↔ Reach (graph h) r x) := by
  refine ⟨fun h r hm => mark_of_marked hm, fun h r f hf => markFuel_eq_mark hf, ?_⟩
  intro h r hu x
  have h1 := markedSet_mark r h
  rw [markedSet_empty_of_allUnmarked hu, Set.empty_union] at h1
  constructor
  · intro hx
    have hx' : x ∈ markedSet (mark r h) := hx
    rw [h1] at hx'
    exact hx'
  · intro hx
    have hx' : x ∈ markedSet (mark r h) := by
      rw [h1]
      exact hx
    exact hx'

/-- A two-pair heap forming a cycle (each pair can reach the other). -/
def cyc : Heap :=
  [(0, { marked := false, data := .pair 1 0 }), (1, { marked := false, data := .pair 0 1 })]

/-- Witness for C1 on the cyclic two-pair heap. -/
theorem mark_correct_witness :
    (isMarked [(0, { marked := true, data := ObjData.int 5 })] 0 = true ∧
      mark 0 [(0, { marked := true, data := ObjData.int 5 })] =
        [(0, { marked := true, data := ObjData.int 5 })]) ∧
    (unmarkedCount cyc < 5 ∧ markFuel 5 0 cyc = mark 0 cyc) ∧
    (AllUnmarked cyc ∧ Reach (graph cyc) 0 1 ∧ isMarked (mark 0 cyc) 1 = true) := by
  have hreach : Reach (graph cyc) 0 1 :=
    ReachA.step 0 1 (ReachA.refl (by decide) (Set.not_mem_empty 0))
      ⟨1, 0, by decide, Or.inl rfl⟩ (by decide) (Set.not_mem_empty 1)
  refine ⟨⟨by decide, mark_correct.1 _ 0 (by decide)⟩,
    ⟨by decide, mark_correct.2.1 _ 0 5 (by decide)⟩,
    ⟨by decide, hreach, ?_⟩⟩
  exact (mark_correct.2.2 cyc 0 (by decide) 1).2 hreach

/-- C2. `sweep` makes one pass over the registry: it keeps exactly the
marked entries, in order and with their mark bit cleared, drops (frees)
every unmarked entry, decrements `numObjects` once per dropped entry, and
leaves the stack, the threshold and the identity supply untouched. -/
theorem sweep_correct (vm : VM) :
    (sweep vm).firstObject = vm.firstObject.filterMap
        (fun e => if e.2.marked then some (e.1, { marked := false, data := e.2.data })
          else none) ∧
    (sweep vm).numObjects = vm.numObjects - unmarkedCount vm.firstObject ∧
    (sweep vm).stack = vm.stack ∧
    (sweep vm).maxObjects = vm.maxObjects ∧
    (sweep vm).nextId = vm.nextId := by
  refine ⟨?_, ?_, rfl, rfl, rfl⟩
  · show (sweepAux vm.firstObject).1 = _
    exact sweepAux_fst_eq_filterMap _
  · show vm.numObjects - ((sweepAux vm.firstObject).2 : Int) = _
    rw [sweepAux_snd_eq_unmarkedCount]

/-- C3. `newObject` runs a full collection exactly when
`numObjects == maxObjects` (and only then — the count comparison is the
only trigger), then creates the object of the requested kind unmarked,
splices it at the registry head, increments the count and returns it. -/
theorem newObject_correct (vm : VM) (t : ObjectType) :
    (vm.numObjects = vm.maxObjects → newObject vm t = allocRaw (gc vm) t) ∧
    (vm.numObjects ≠ vm.maxObjects → newObject vm t = allocRaw vm t) ∧
    (newObject vm t).2 = (preAlloc vm).nextId ∧
    (newObject vm t).1.firstObject =
      ((newObject vm t).2, { marked := false, data := initData t }) ::
        (preAlloc vm).firstObject ∧
    (newObject vm t).1.numObjects = (preAlloc vm).numObjects + 1 ∧
    (newObject vm t).1.stack = vm.stack ∧
    (newObject vm t).1.maxObjects = (preAlloc vm).maxObjects := by
  refine ⟨?_, ?_, rfl, rfl, rfl, ?_, rfl⟩
  · intro h
    rw [newObject_eq]
    unfold preAlloc
    rw [if_pos h]
  · intro h
    rw [newObject_eq]
    unfold preAlloc
    rw [if_neg h]
  · show (preAlloc vm).stack = vm.stack
    exact preAlloc_stack vm

/-- Witness for C3: a non-triggering and a triggering allocation. -/
theorem newObject_correct_witness :
    ((newVM.numObjects ≠ newVM.maxObjects) ∧
      newObject newVM .OBJ_INT = allocRaw newVM .OBJ_INT) ∧
    (((VM.mk [] [] 8 8 9 : VM).numObjects = (VM.mk [] [] 8 8 9 : VM).maxObjects) ∧
      newObject (VM.mk [] [] 8 8 9) .OBJ_INT = allocRaw (gc (VM.mk [] [] 8 8 9)) .OBJ_INT) :=
  ⟨⟨by decide, (newObject_correct newVM .OBJ_INT).2.1 (by decide)⟩,
    ⟨by decide, (newObject_correct (VM.mk [] [] 8 8 9) .OBJ_INT).1 (by decide)⟩⟩

/-- C4. A collection cycle is exactly mark-all-roots, then sweep, then
rescale the threshold to twice the post-sweep live count; the operand
stack and identity supply are untouched, and with an all-unmarked heap the
mark phase marks precisely the objects reachable from some stack root. -/
theorem gc_correct (vm : VM) :
    gc vm = { sweep (markAll vm) with maxObjects := (sweep (markAll vm)).numObjects * 2 } ∧
    (gc vm).stack = vm.stack ∧
    (gc vm).nextId = vm.nextId ∧
    (gc vm).firstObject = (sweepAux (markAllHeap vm.stack vm.firstObject)).1 ∧
    (gc vm).numObjects =
      vm.numObjects - ((sweepAux (markAllHeap vm.stack vm.firstObject)).2 : Int) ∧
    (gc vm).maxObjects = (gc vm).numObjects * 2 ∧
    (AllUnmarked vm.firstObject →
      markedSet (markAllHeap vm.stack vm.firstObject) = RootReach vm) := by
  refine ⟨rfl, rfl, rfl, rfl, rfl, rfl, ?_⟩
  intro hu
  have hM0 : markedSet vm.firstObject = ∅ := markedSet_empty_of_allUnmarked hu
  have hec : EdgeClosed (graph vm.firstObject) (markedSet vm.firstObject) := by
    rw [hM0]
    exact edgeClosed_empty _
  obtain ⟨hset, hgr, hcl⟩ := markedSet_markAllHeap vm.stack vm.firstObject hec
  rw [hset, hM0, Set.empty_union]
  rfl

/-- Witness for C4 on a small state with one live root and one garbage
object. -/
theorem gc_correct_witness :
    AllUnmarked (VM.mk [(1, { marked := false, data := ObjData.int 7 }),
        (0, { marked := false, data := ObjData.int 3 })] [1] 2 8 2).firstObject ∧
      markedSet (markAllHeap [1] [(1, { marked := false, data := ObjData.int 7 }),
          (0, { marked := false, data := ObjData.int 3 })]) =
        RootReach (VM.mk [(1, { marked := false, data := ObjData.int 7 }),
          (0, { marked := false, data := ObjData.int 3 })] [1] 2 8 2) :=
  ⟨by decide, (gc_correct (VM.mk [(1, { marked := false, data := ObjData.int 7 }),
    (0, { marked := false, data := ObjData.int 3 })] [1] 2 8 2)).2.2.2.2.2.2 (by decide)⟩

/-- C5. With at least two entries on the (bounded) stack, `pushPair` pops
two references — the first-popped (stack top) becomes the pair tail, the
second-popped becomes the head — pushes the freshly allocated pair, for a
net stack depth change of minus one; with fewer than two entries it is a
fatal underflow. -/
theorem pushPair_correct :
    (∀ (vm : VM) (a b : Nat) (rest : List Nat), vm.stack = a :: b :: rest →
      vm.stack.length ≤ STACK_MAX →
      ∃ vm', pushPair vm = .ok (vm', vm.nextId) ∧
        vm'.stack = vm.nextId :: rest ∧
        vm'.stack.length + 1 = vm.stack.length ∧
        graph vm'.firstObject vm.nextId = some (.pair b a)) ∧
    (∀ vm : VM, vm.stack.length < 2 → pushPair vm = .error "Stack underflow!") := by
  constructor
  · intro vm a b rest hs hlen
    have hlen' : rest.length < STACK_MAX := by
      rw [hs] at hlen
      simp only [List.length_cons] at hlen
      omega
    refine ⟨_, pushPair_run vm a b rest hs hlen', rfl, ?_, ?_⟩
    · rw [hs]
      simp
    · unfold graph
      rw [lookupObj_cons, if_pos rfl]
      rfl
  · exact pushPair_underflow

/-- Witness for C5: a successful pairing and an underflow. -/
theorem pushPair_correct_witness :
    (∃ vm', pushPair (VM.mk [] [5, 7] 0 8 0) = .ok (vm', (VM.mk [] [5, 7] 0 8 0 : VM).nextId) ∧
      vm'.stack = (VM.mk [] [5, 7] 0 8 0 : VM).nextId :: [] ∧
      vm'.stack.length + 1 = (VM.mk [] [5, 7] 0 8 0 : VM).stack.length ∧
      graph vm'.firstObject (VM.mk [] [5, 7] 0 8 0 : VM).nextId = some (.pair 7 5)) ∧
    pushPair (VM.mk [] [5] 0 8 0) = .error "Stack underflow!" :=
  ⟨pushPair_correct.1 (VM.mk [] [5, 7] 0 8 0) 5 7 [] rfl (by decide),
    pushPair_correct.2 (VM.mk [] [5] 0 8 0) (by decide)⟩

/-- C6. If a collection leaves `numObjects` at zero, the threshold is
rescaled to zero, so the very next allocation runs another collection
before creating its object. -/
theorem gc_zero_retrigger (vm : VM) (t : ObjectType) (h0 : (gc vm).numObjects = 0) :
    (gc vm).maxObjects = 0 ∧ newObject (gc vm) t = allocRaw (gc (gc vm)) t := by
  have hmax : (gc vm).maxObjects = 0 := by
    rw [gc_maxObjects_eq, h0]
    simp
  refine ⟨hmax, ?_⟩
  rw [newObject_eq]
  unfold preAlloc
  rw [if_pos (by rw [h0, hmax])]

/-- Witness for C6: collecting the empty VM leaves zero objects and a zero
threshold, and the next allocation re-collects. -/
theorem gc_zero_retrigger_witness :
    (gc newVM).numObjects = 0 ∧ (gc newVM).maxObjects = 0 ∧
      newObject (gc newVM) .OBJ_INT = allocRaw (gc (gc newVM)) .OBJ_INT :=
  ⟨by decide, gc_zero_retrigger newVM .OBJ_INT (by decide)⟩

/-- C7. From any reachable VM state, a second collection run immediately
after a first one frees nothing: the swept count of the second cycle is
zero, `numObjects` is unchanged, and in fact the whole state is unchanged,
because the first sweep cleared every survivor's mark bit. -/
theorem gc_idempotent {vm : VM} (h : ReachableVM vm) :
    gc (gc vm) = gc vm ∧
      (sweepAux (markAllHeap (gc vm).stack (gc vm).firstObject)).2 = 0 ∧
      (gc (gc vm)).numObjects = (gc vm).numObjects := by
  obtain ⟨h1, h2⟩ := gc_gc_main (reachableVM_wf h)
  exact ⟨h1, h2, by rw [h1]⟩

/-- Witness for C7 at the freshly created VM. -/
theorem gc_idempotent_witness :
    gc (gc newVM) = gc newVM ∧
      (sweepAux (markAllHeap (gc newVM).stack (gc newVM).firstObject)).2 = 0 ∧
      (gc (gc newVM)).numObjects = (gc newVM).numObjects :=
  gc_idempotent ReachableVM.init

/-- C8. Outside an in-progress cycle every allocated object has its mark
bit false: it holds in every reachable VM state, and every object
surviving a sweep comes out with its mark bit cleared. -/
theorem marks_false_outside_cycle {vm : VM} (h : ReachableVM vm) :
    AllUnmarked vm.firstObject ∧ AllUnmarked (gc vm).firstObject :=
  ⟨(reachableVM_wf h).1, sweepAux_fst_allUnmarked _⟩

/-- Witness for C8 at the state reached by pushing one integer. -/
theorem marks_false_outside_cycle_witness :
    AllUnmarked (VM.mk [(0, { marked := false, data := ObjData.int 1 })] [0] 1 8 1
      : VM).firstObject ∧
    AllUnmarked (gc (VM.mk [(0, { marked := false, data := ObjData.int 1 })] [0] 1 8 1)
      ).firstObject :=
  marks_false_outside_cycle
    (ReachableVM.step_pushInt newVM 1 _ ReachableVM.init rfl)

/-- C9. The only fatal conditions are stack overflow on `push` and stack
underflow on `pop` (or the pops inside `pushPair`), each with its
diagnostic message; `pushInt` can fail only by overflow, `pushPair` only
by underflow or overflow, and `mark`, `sweep`, `gc` and `newObject` are
total functions. -/
theorem fatal_conditions :
    (∀ (vm : VM) (v : Nat), vm.stack.length < STACK_MAX →
      push vm v = .ok { vm with stack := v :: vm.stack }) ∧
    (∀ (vm : VM) (v : Nat), ¬ vm.stack.length < STACK_MAX →
      push vm v = .error "Stack overflow!") ∧
    (∀ vm : VM, vm.stack = [] → pop vm = .error "Stack underflow!") ∧
    (∀ (vm : VM) (x : Nat) (rest : List Nat), vm.stack = x :: rest →
      pop vm = .ok (x, { vm with stack := rest })) ∧
    (∀ (vm : VM) (v : Int) (m : String), pushInt vm v = .error m →
      m = "Stack overflow!" ∧ STACK_MAX ≤ vm.stack.length) ∧
    (∀ (vm : VM) (m : String), pushPair vm = .error m →
      (m = "Stack underflow!" ∧ vm.stack.length < 2) ∨
      (m = "Stack overflow!" ∧ STACK_MAX + 2 ≤ vm.stack.length)) := by
  refine ⟨?_, ?_, ?_, ?_, ?_, ?_⟩
  · intro vm v h
    unfold push
    rw [if_pos h]
  · intro vm v h
    unfold push
    rw [if_neg h]
  · intro vm h
    simp [pop, h]
  · intro vm x rest h
    simp [pop, h]
  · intro vm v m h
    by_cases hlen : vm.stack.length < STACK_MAX
    · rw [pushInt_run vm v hlen] at h
      cases h
    · rw [pushInt_overflow vm v (by omega)] at h
      injection h with h
      exact ⟨h.symm, by omega⟩
  · intro vm m h
    rcases hst : vm.stack with _ | ⟨a, rest⟩
    · rw [pushPair_underflow vm (by rw [hst]; simp)] at h
      injection h with h
      exact Or.inl ⟨h.symm, by simp⟩
    · rcases rest with _ | ⟨b, rest2⟩
      · rw [pushPair_underflow vm (by rw [hst]; simp)] at h
        injection h with h
        exact Or.inl ⟨h.symm, by simp⟩
      · by_cases hlen : rest2.length < STACK_MAX
        · rw [pushPair_run vm a b rest2 hst hlen] at h
          cases h
        · rw [pushPair_overflow vm a b rest2 hst hlen] at h
          injection h with h
          refine Or.inr ⟨h.symm, ?_⟩
          simp only [STACK_MAX, List.length_cons] at hlen ⊢
          omega

/-- Witness for C9: a successful push, an overflowing push, an
underflowing pop, a successful pop, and the two `pushPair` failures. -/
theorem fatal_conditions_witness :
    (newVM.stack.length < STACK_MAX ∧
      push newVM 3 = .ok { newVM with stack := 3 :: newVM.stack }) ∧
    (¬ (VM.mk [] (List.replicate 256 0) 0 8 0 : VM).stack.length < STACK_MAX ∧
      push (VM.mk [] (List.replicate 256 0) 0 8 0) 3 = .error "Stack overflow!") ∧
    (newVM.stack = [] ∧ pop newVM = .error "Stack underflow!") ∧
    (pop (VM.mk [] [4] 0 8 0) = .ok (4, { (VM.mk [] [4] 0 8 0 : VM) with stack := [] })) ∧
    ((("Stack underflow!" : String) = "Stack underflow!" ∧
        (VM.mk [] [4] 0 8 0 : VM).stack.length < 2) ∨
      (("Stack underflow!" : String) = "Stack overflow!" ∧
        STACK_MAX + 2 ≤ (VM.mk [] [4] 0 8 0 : VM).stack.length)) := by
  have hfull : ¬ (VM.mk [] (List.replicate 256 0) 0 8 0 : VM).stack.length < STACK_MAX := by
    show ¬ (List.replicate 256 0).length < STACK_MAX
    rw [List.length_replicate]
    decide
  refine ⟨⟨by decide, fatal_conditions.1 newVM 3 (by decide)⟩,
    ⟨hfull, fatal_conditions.2.1 (VM.mk [] (List.replicate 256 0) 0 8 0) 3 hfull⟩,
    ⟨rfl, fatal_conditions.2.2.1 newVM rfl⟩,
    fatal_conditions.2.2.2.1 (VM.mk [] [4] 0 8 0) 4 [] rfl,
    fatal_conditions.2.2.2.2.2 (VM.mk [] [4] 0 8 0) "Stack underflow!" ?_⟩
  exact pushPair_underflow (VM.mk [] [4] 0 8 0) (by decide)

/-- C10. `pushPair` allocates the pair before popping its operands, so a
collection triggered by that allocation still sees both operands as stack
roots: both survive that collection, and the new pair references exactly
those two surviving objects. -/
theorem pushPair_roots_safe (vm : VM) (a b : Nat) (rest : List Nat)
    (hs : vm.stack = a :: b :: rest) (hlen : vm.stack.length ≤ STACK_MAX)
    (hu : AllUnmarked vm.firstObject)
    (hda : (lookupObj vm.firstObject a).isSome)
    (hdb : (lookupObj vm.firstObject b).isSome)
    (htr : vm.numObjects = vm.maxObjects) :
    ∃ vm', pushPair vm = .ok (vm', vm.nextId) ∧
      (lookupObj vm'.firstObject a).isSome ∧
      (lookupObj vm'.firstObject b).isSome ∧
      graph vm'.firstObject vm.nextId = some (.pair b a) := by
  have hlen' : rest.length < STACK_MAX := by
    rw [hs] at hlen
    simp only [List.length_cons] at hlen
    omega
  have hpre : preAlloc vm = gc vm := by
    unfold preAlloc
    rw [if_pos htr]
  have hsurv : ∀ y, y ∈ vm.stack → (lookupObj vm.firstObject y).isSome →
      (lookupObj ((vm.nextId, { marked := false, data := ObjData.pair b a }) ::
        (preAlloc vm).firstObject) y).isSome := by
    intro y hy hq
    rw [lookupObj_cons]
    by_cases hne : vm.nextId = y
    · rw [if_pos hne]
      rfl
    · rw [if_neg hne, hpre]
      exact root_survives_gc hu hy hq
  refine ⟨_, pushPair_run vm a b rest hs hlen', ?_, ?_, ?_⟩
  · exact hsurv a (by rw [hs]; exact List.mem_cons_self _ _) hda
  · exact hsurv b (by rw [hs]; exact List.mem_cons_of_mem _ (List.mem_cons_self _ _)) hdb
  · unfold graph
    rw [lookupObj_cons, if_pos rfl]
    rfl

/-- Witness for C10: a pairing whose allocation triggers a collection, with
both operands surviving it. -/
theorem pushPair_roots_safe_witness :
    ∃ vm', pushPair (VM.mk [(1, { marked := false, data := ObjData.int 20 }),
        (0, { marked := false, data := ObjData.int 10 })] [1, 0] 2 2 2) =
      .ok (vm', (VM.mk [(1, { marked := false, data := ObjData.int 20 }),
        (0, { marked := false, data := ObjData.int 10 })] [1, 0] 2 2 2 : VM).nextId) ∧
      (lookupObj vm'.firstObject 1).isSome ∧
      (lookupObj vm'.firstObject 0).isSome ∧
      graph vm'.firstObject (VM.mk [(1, { marked := false, data := ObjData.int 20 }),
        (0, { marked := false, data := ObjData.int 10 })] [1, 0] 2 2 2 : VM).nextId =
        some (.pair 0 1) :=
  pushPair_roots_safe (VM.mk [(1, { marked := false, data := ObjData.int 20 }),
    (0, { marked := false, data := ObjData.int 10 })] [1, 0] 2 2 2) 1 0 []
    rfl (by decide) (by decide) (by decide) (by decide) rfl

end BabyGC
